import Mathlib

set_option maxRecDepth 20000

/-!
Shallow embedding of the py4web scaffold client-side utility library
(`utils.js`) together with proofs about its string-processing helpers,
its AJAX / form-trapping layer and its event-delegate flag.

Strings are modelled as `List Char` (JS strings, one entry per UTF-16
code unit in the ranges the claims exercise).  JS numbers appearing in
the password-strength arithmetic are modelled as `ℚ` (the computation
is a short sum of small fractions; the algorithmic content, which is
what the specification describes, is exact arithmetic).  Fallible
operations return `Except`/`Option`; browser side effects (fetch, DOM
mutation, timers, console, flash banners) are modelled as an explicit
effect trace, and promises as an effect trace paired with an
`Except`-style outcome.
-/

/-- The set of characters removed by JavaScript `String.prototype.trim`
(ECMAScript WhiteSpace and LineTerminator code points). -/
def isJSWhitespace (c : Char) : Bool :=
  c = ' ' || c = '\t' || c = '\n' || c = '\r' ||
  c.val = 0x0B || c.val = 0x0C || c.val = 0xA0 || c.val = 0x1680 ||
  (0x2000 ≤ c.val && c.val ≤ 0x200A) ||
  c.val = 0x2028 || c.val = 0x2029 || c.val = 0x202F ||
  c.val = 0x205F || c.val = 0x3000 || c.val = 0xFEFF

/-- JavaScript `String.prototype.trim` on the `List Char` model:
drop leading and trailing whitespace. -/
def trimL (l : List Char) : List Char :=
  ((l.dropWhile isJSWhitespace).reverse.dropWhile isJSWhitespace).reverse

/-- JavaScript `String.prototype.toLowerCase` restricted to the
locale-independent per-character mapping. -/
def toLowerStr (l : List Char) : List Char :=
  l.map Char.toLower

/-- Number of occurrences of the character `c` in the list `l`. -/
def countOcc (c : Char) : List Char → ℕ
  | [] => 0
  | d :: rest => (if d = c then 1 else 0) + countOcc c rest

/-! ### JS values and argument objects

`String.prototype.format` and `T.format` receive a plain JS object of
named arguments.  The claims only exercise string and (for the plural
count `n`) integer values, so a JS value is modelled as one of those
two. -/

/-- A JavaScript value as far as the format helpers observe it. -/
inductive JSVal where
  | num (i : Int)
  | str (s : List Char)
deriving DecidableEq, Repr

/-- JavaScript `String(v)` on the modelled values. -/
def jsToString : JSVal → List Char
  | JSVal.num i => (toString i).toList
  | JSVal.str s => s

/-- A JS object of format arguments: an association list keyed by
property name.  JS object keys are unique; lookup takes the first
binding. -/
def ArgsMap : Type := List (List Char × JSVal)

/-- Property lookup `args[k]` on an argument object. -/
def argsLookup (args : ArgsMap) (k : List Char) : Option JSVal :=
  List.lookup k args

/-- The string substituted for a placeholder `\x7bk\x7d`: the value of
`args[k]` converted to a string; a JS object without the property gives
`undefined`, which the replacement stringifies to `"undefined"`. -/
def resolveArg (args : ArgsMap) (k : List Char) : List Char :=
  match argsLookup args k with
  | some v => jsToString v
  | none => "undefined".toList

namespace StringPrototype

/-- Does the string start with a placeholder, i.e. does the regex
`\x5c\x7b([^\x7d]+)\x7d` match at position 0?  It does exactly when the
first character is a brace-open, the following run of
non-brace-close characters is non-empty, and a brace-close follows it. -/
def placeholderAt : List Char → Bool
  | c :: rest =>
      decide (c = '{') &&
      !(rest.takeWhile (fun x => x ≠ '}')).isEmpty &&
      !(rest.dropWhile (fun x => x ≠ '}')).isEmpty
  | [] => false

/-- `String.prototype.format` from `utils.js`: global replacement of the
regex `\x5c\x7b([^\x7d]+)\x7d` by the corresponding argument value,
scanning left to right.  At each position, if a placeholder starts
there (leftmost match; the greedy `[^\x7d]+` necessarily stops at the
first brace-close) it is consumed and replaced, otherwise one character
is copied. -/
def formatList (args : ArgsMap) : List Char → List Char
  | [] => []
  | c :: rest =>
      if c = '{' ∧ (rest.takeWhile (fun x => x ≠ '}')) ≠ [] ∧
          (rest.dropWhile (fun x => x ≠ '}')) ≠ [] then
        resolveArg args (rest.takeWhile (fun x => x ≠ '}')) ++
          formatList args ((rest.dropWhile (fun x => x ≠ '}')).tail)
      else
        c :: formatList args rest
  termination_by l => l.length
  decreasing_by
    · simp only [List.length_cons]
      have h1 : ((rest.dropWhile (fun x => x ≠ '}')).tail).length ≤
          (rest.dropWhile (fun x => x ≠ '}')).length := by
        cases rest.dropWhile (fun x => x ≠ '}') <;> simp
      have h2 : (rest.dropWhile (fun x => x ≠ '}')).length ≤ rest.length :=
        (List.dropWhile_sublist _).length_le
      omega
    · simp only [List.length_cons]; omega

/-- `"...".format(args)` from `utils.js`. -/
def format (s : List Char) (args : ArgsMap) : List Char :=
  formatList args s

end StringPrototype

namespace T

/-- The translation table `T.translations`: maps a source string to its
plural forms, a list of (numeric key, translation) pairs listed in the
order JS `for...in` enumerates them (ascending for integer-like keys). -/
def Translations : Type := List (List Char × List (ℕ × List Char))

/-- The `for...in` loop of `T.format`: `k` starts at 0 and is updated to
each key that is `≤ n`, breaking at the first key that is not. -/
def pluralGo : List (ℕ × List Char) → Int → ℕ → ℕ
  | [], _, k => k
  | (i, _) :: rest, n, k => if (i : Int) ≤ n then pluralGo rest n i else k

/-- The plural count: `args.n` when the property is present, else 1.
The claims only exercise numeric `n`; a non-numeric value is mapped to
0 and excluded by hypothesis wherever it matters. -/
def argN (args : ArgsMap) : Int :=
  match argsLookup args ("n".toList) with
  | some (JSVal.num i) => i
  | some (JSVal.str _) => 0
  | none => 1

/-- `T.format` from `utils.js`.  When the table has an entry for `text`,
the `for...in`/`parseInt` loop selects a key `k`, the entry's value at
`k` becomes the new text and is interpolated; looking up a missing key
yields JS `undefined`, on which `.format` throws — modelled as `none`.
Without an entry, `text` itself is interpolated. -/
def format (table : Translations) (text : List Char) (args : ArgsMap) :
    Option (List Char) :=
  match List.lookup text table with
  | some entry =>
      match List.lookup (pluralGo entry (argN args) 0) entry with
      | some t => some (StringPrototype.format t args)
      | none => none
  | none => some (StringPrototype.format text args)

end T

namespace Q

/-- The scanner state of `Q.parse_list`: fields accumulated so far, the
pending field, the in-quotes flag and the escape flag. -/
structure PLState where
  acc : List (List Char)
  cur : List Char
  q : Bool
  esc : Bool
deriving DecidableEq, Repr

/-- One iteration of the `Q.parse_list` loop on character `c`.  The
final iteration of the JS loop (index = length) sees the synthetic
character `','` with `eol` true; on that iteration the quoted branch
treats `','` as an ordinary character and the unquoted branch pushes the
pending field, which is exactly this step function applied to `','`, so
the whole loop is a fold over the input followed by `','`. -/
def plStep (st : PLState) (c : Char) : PLState :=
  if st.q then
    if st.esc then { st with cur := st.cur ++ [c], esc := false }
    else if c = '\\' then { st with esc := true }
    else if c = '"' then { st with q := false }
    else { st with cur := st.cur ++ [c] }
  else if c = '"' then { st with q := true }
  else if c = ',' then { st with acc := st.acc ++ [trimL st.cur], cur := [] }
  else { st with cur := st.cur ++ [c] }

/-- The initial scanner state of `Q.parse_list`. -/
def plInit : PLState := ⟨[], [], false, false⟩

/-- `Q.parse_list` from `utils.js`. -/
def parse_list (line : List Char) : List (List Char) :=
  if line = [] then []
  else (List.foldl plStep plInit (line ++ [','])).acc

end Q

/-! ### IEEE-754 binary64 arithmetic

`Q.score_password` accumulates its score in JavaScript numbers, i.e.
IEEE-754 binary64 ("double") values.  Every finite double is a dyadic
rational `m * 2^e` with `|m| < 2^53`, so doubles are modelled as such
pairs, and each addition and division of the source is modelled as the
exact rational operation followed by rounding to 53 significant bits,
to nearest, ties to even — exactly the IEEE operation in the normal
range.  Subnormal and overflow handling (magnitudes below `2^-1022` or
above `2^1024`) is not modelled: the quantities this function computes
are sums of terms `5 / k` and bonuses of 10, far inside the normal
range.  The recursion fuel of 4000 makes the bit-length and binade
searches exact for all magnitudes between `2^-4000` and `2^4000`. -/

/-- Number of binary digits of `n` (0 for 0), by fuel-bounded structural
recursion; exact for `n < 2^fuel`. -/
def bitLen : ℕ → ℕ → ℕ
  | 0, _ => 0
  | fuel + 1, n => if n = 0 then 0 else bitLen fuel (n / 2) + 1

/-- A finite binary64 value, represented as the dyadic rational
`m * 2^e`. -/
structure Dy where
  m : Int
  e : Int
deriving DecidableEq, Repr

/-- Round `n / 2^k` to an integer, to nearest, ties to even. -/
def rshiftRNE (n : ℕ) (k : ℕ) : ℕ :=
  if k = 0 then n
  else
    let q := n / 2 ^ k
    let r := n % 2 ^ k
    let half := 2 ^ (k - 1)
    if r < half then q
    else if half < r then q + 1
    else if q % 2 = 0 then q else q + 1

/-- Round the dyadic rational `m * 2^e` to binary64: keep at most 53
significant bits, rounding to nearest, ties to even. -/
def flD (m : Int) (e : Int) : Dy :=
  if m = 0 then ⟨0, 0⟩
  else
    let n := m.natAbs
    let b := bitLen 4000 n
    if b ≤ 53 then ⟨m, e⟩
    else
      let k := b - 53
      let q := rshiftRNE n k
      ⟨if m < 0 then -(q : Int) else (q : Int), e + (k : Int)⟩

/-- Binary64 addition: the exact sum (after aligning exponents),
rounded. -/
def faddD (a b : Dy) : Dy :=
  let e0 := min a.e b.e
  flD (a.m * 2 ^ (a.e - e0).toNat + b.m * 2 ^ (b.e - e0).toNat) e0

/-- Binade search for the positive rational `n / d`: starting from
exponent `e`, find the exponent `e'` with `2^e' ≤ n / d < 2^(e'+1)`,
using only integer comparisons. -/
def binadeND : ℕ → ℕ → ℕ → Int → Int
  | 0, _, _, e => e
  | fuel + 1, n, d, e =>
      let le : Bool := if 0 ≤ e then d * 2 ^ e.toNat ≤ n else d ≤ n * 2 ^ (-e).toNat
      if le then
        let lt : Bool :=
          if 0 ≤ e + 1 then n < d * 2 ^ (e + 1).toNat else n * 2 ^ (-(e + 1)).toNat < d
        if lt then e else binadeND fuel n d (e + 1)
      else binadeND fuel n d (e - 1)

/-- Round the exact quotient `n / d` to an integer, to nearest, ties to
even, using the division remainder. -/
def divRNE (n d : ℕ) : ℕ :=
  let q := n / d
  let r := n % d
  if 2 * r < d then q
  else if d < 2 * r then q + 1
  else if q % 2 = 0 then q else q + 1

/-- Binary64 division of the natural `n` by the natural `d` (the
source divides the literal 5 by a character counter): locate the binade
of the exact quotient, then round it to 53 significant bits in one
rounding step. -/
def fdivND (n d : ℕ) : Dy :=
  if n = 0 ∨ d = 0 then ⟨0, 0⟩
  else
    let e := binadeND 4000 n d 0
    if 52 - e ≥ 0 then ⟨(divRNE (n * 2 ^ (52 - e).toNat) d : ℕ), e - 52⟩
    else ⟨(divRNE n (d * 2 ^ (e - 52).toNat) : ℕ), e - 52⟩

/-- JavaScript `Math.max(0, s)` on a double: a negative double has a
negative mantissa. -/
def max0D (d : Dy) : Dy := if d.m < 0 then ⟨0, 0⟩ else d

/-- JavaScript `Math.round` of the double `m * 2^e`: the integer nearest
to its exact value, ties toward positive infinity, i.e. the floor of
the exact value plus one half, computed with integer floor division. -/
def jsRoundD (d : Dy) : Int :=
  if 0 ≤ d.e then d.m * 2 ^ d.e.toNat
  else Int.fdiv (2 * d.m + 2 ^ (-d.e).toNat) (2 ^ ((-d.e).toNat + 1))

namespace Q

/-- The character-counting loop of `Q.score_password`: for each
character, increment its counter and add `5 / counter` to the running
score, in binary64 arithmetic. -/
def scoreLoop : (Char → ℕ) → Dy → List Char → Dy
  | _, s, [] => s
  | counters, s, c :: rest =>
      let k := counters c + 1
      scoreLoop (fun d => if d = c then k else counters d) (faddD s (fdivND 5 k)) rest

/-- JS regex `\d` on a single character. -/
def isDigitJS (c : Char) : Bool := '0' ≤ c && c ≤ '9'

/-- JS regex `[a-z]` on a single character. -/
def isLowerJS (c : Char) : Bool := 'a' ≤ c && c ≤ 'z'

/-- JS regex `[A-Z]` on a single character. -/
def isUpperJS (c : Char) : Bool := 'A' ≤ c && c ≤ 'Z'

/-- JS regex `\W` (non-word character) on a single character. -/
def isNonWordJS (c : Char) : Bool :=
  !(isLowerJS c || isUpperJS c || isDigitJS c || c = '_')

/-- The four character-class bonuses of `Q.score_password`: 10 added to
the score, in source order, for each of the regexes `\d`, `[a-z]`,
`[A-Z]`, `\W` that matches somewhere in the text (0 added otherwise),
each addition a binary64 addition as in the source. -/
def classFold (text : List Char) (s : Dy) : Dy :=
  faddD (faddD (faddD (faddD s (if text.any isDigitJS then ⟨10, 0⟩ else ⟨0, 0⟩))
    (if text.any isLowerJS then ⟨10, 0⟩ else ⟨0, 0⟩))
    (if text.any isUpperJS then ⟨10, 0⟩ else ⟨0, 0⟩))
    (if text.any isNonWordJS then ⟨10, 0⟩ else ⟨0, 0⟩)

/-- JavaScript `Math.round` on the exact rational model: round half
toward positive infinity (used by the specification-side exact
formula). -/
def jsRound (x : ℚ) : Int := ⌊x + 1 / 2⌋

/-- `Q.score_password` from `utils.js`: the double-precision score
starts at -10, each character adds 5 divided by the running count of
that character, each matching character class adds 10, and the result
is `Math.round(Math.max(0, score))`. -/
def score_password (text : List Char) : Int :=
  jsRoundD (max0D (classFold text (scoreLoop (fun _ => 0) ⟨-10, 0⟩ text)))

end Q

/-! ### Effects and promises

Browser side effects are recorded in an explicit trace; a promise is
the trace of effects its computation emits together with its
settlement: fulfilled with a value, or rejected with an error. -/

/-- A JavaScript error (the message is all the library observes). -/
structure JSErr where
  msg : List Char
deriving DecidableEq, Repr

/-- An observable browser side effect performed by the library. -/
inductive Effect where
  | fetchCall (method url : List Char)
  | consoleErrorLog (tag : List Char)
  | flashMsg (message cls : List Char)
  | setInnerHTML (target : List Char)
  | rerunScripts (target : List Char)
  | trapForms (url target : List Char)
  | redirectTo (url : List Char)
  | setButtonsDisabled (disabled : Bool)
  | schedule (delay : Int)
  | cancelTimer
  | callbackRun
deriving DecidableEq, Repr

/-- A settled promise: the effects emitted while it ran, and its
settlement. -/
def JSPromise (α : Type) : Type := List Effect × Except JSErr α

/-- A promise fulfilled with `a`, emitting nothing. -/
def pRet {α : Type} (a : α) : JSPromise α := ([], Except.ok a)

/-- A promise rejected with `e`, emitting nothing. -/
def pReject {α : Type} (e : JSErr) : JSPromise α := ([], Except.error e)

/-- Emit one effect and fulfil. -/
def pEmit (eff : Effect) : JSPromise Unit := ([eff], Except.ok ())

/-- `.then` chaining: on fulfilment run the continuation, on rejection
propagate it; effects accumulate in order. -/
def pThen {α β : Type} (p : JSPromise α) (f : α → JSPromise β) : JSPromise β :=
  match p with
  | (effs, Except.ok a) => (effs ++ (f a).1, (f a).2)
  | (effs, Except.error e) => (effs, Except.error e)

/-- `.catch` chaining: on rejection run the handler (whose fulfilment
makes the resulting promise fulfil), on fulfilment pass through. -/
def pCatch {α : Type} (p : JSPromise α) (f : JSErr → JSPromise α) : JSPromise α :=
  match p with
  | (effs, Except.ok a) => (effs, Except.ok a)
  | (effs, Except.error e) => (effs ++ (f e).1, (f e).2)

/-- `.finally` chaining: the callback always runs; its settlement is
ignored unless it rejects. -/
def pFinally {α : Type} (p : JSPromise α) (fin : JSPromise Unit) : JSPromise α :=
  match fin.2 with
  | Except.ok _ => (p.1 ++ fin.1, p.2)
  | Except.error e => (p.1 ++ fin.1, Except.error e)

/-- The response object `Q.ajax` fulfils with: the body text attached as
`data`, plus the response fields `load_and_trap` reads.  `flashParsed`
records whether `JSON.parse` succeeds on the `component-flash` header
and with which message/class pair. -/
structure Resp where
  data : List Char
  redirected : Bool
  resUrl : List Char
  flashHeader : Option (List Char)
  flashParsed : Option (List Char × List Char)
deriving DecidableEq, Repr

deriving instance DecidableEq for Except

/-- Environment oracle for one request: the outcome of `fetch` and, when
it resolves, the outcome of `res.text()` and the response fields. -/
structure NetOracle where
  fetchResult : Except JSErr Unit
  textResult : Except JSErr (List Char)
  redirected : Bool
  resUrl : List Char
  flashHeader : Option (List Char)
  flashParsed : Option (List Char × List Char)
deriving DecidableEq, Repr

/-- Environment oracle for the DOM side of `load_and_trap`: whether the
target element exists, and whether the DOM-update processing of the
response throws (script re-execution / form trapping). -/
structure DomOracle where
  targetExists : Bool
  procThrow : Option JSErr
deriving DecidableEq, Repr

namespace Q

/-- `Q.ajax` from `utils.js`: build the options, call `fetch` exactly
once, then read the body with `res.text()`; either failure rejects the
returned promise, success fulfils it with the augmented response. -/
def ajax (method url : List Char) (net : NetOracle) : JSPromise Resp :=
  pThen (pEmit (Effect.fetchCall method url)) fun _ =>
    match net.fetchResult with
    | Except.error e => pReject e
    | Except.ok _ =>
        match net.textResult with
        | Except.error e => pReject e
        | Except.ok body =>
            pRet ⟨body, net.redirected, net.resUrl, net.flashHeader, net.flashParsed⟩

/-- The flash banner message/class texts used by the component layer. -/
def dangerCls : List Char := "danger".toList

/-- The success branch of `load_and_trap`'s `.then`: redirect handling,
target lookup, DOM replacement, script re-execution, form re-trapping
(any of which may throw, per the `procThrow` oracle), then the
`component-flash` header. -/
def loadSuccess (url target : List Char) (dom : DomOracle) (res : Resp) :
    JSPromise Unit :=
  if res.redirected then pEmit (Effect.redirectTo res.resUrl)
  else if dom.targetExists = false then
    pEmit (Effect.flashMsg ("Target element not found".toList) dangerCls)
  else
    pThen (pEmit (Effect.setInnerHTML target)) fun _ =>
    pThen (match dom.procThrow with
           | some e => pReject e
           | none => pRet ()) fun _ =>
    pThen (pEmit (Effect.rerunScripts target)) fun _ =>
    pThen (pEmit (Effect.trapForms url target)) fun _ =>
      match res.flashHeader with
      | none => pRet ()
      | some raw =>
          match res.flashParsed with
          | some mc => pEmit (Effect.flashMsg mc.1 mc.2)
          | none => pEmit (Effect.flashMsg raw ("info".toList))

/-- The request-and-process part of `load_and_trap`, before its final
`.catch`: it rejects exactly when the request fails or the response
processing throws. -/
def loadAttempt (method url target : List Char) (net : NetOracle)
    (dom : DomOracle) : JSPromise Unit :=
  pThen (ajax (toLowerStr (if method = [] then "GET".toList else method)) url net)
    (loadSuccess url target dom)

/-- `Q.load_and_trap` from `utils.js`: optionally flash a missing-target
warning, then run the request and processing, and catch any rejection
by flashing a danger banner and logging the error to the console. -/
def load_and_trap (method url target : List Char) (net : NetOracle)
    (dom : DomOracle) : JSPromise Unit :=
  pThen (if target = [] then
           pEmit (Effect.flashMsg ("Target element not specified".toList) dangerCls)
         else pRet ()) fun _ =>
    pCatch (loadAttempt method url target net dom) fun _ =>
      pThen (pEmit (Effect.flashMsg ("Ajax component error".toList) dangerCls)) fun _ =>
        pEmit (Effect.consoleErrorLog ("Ajax component error:".toList))

/-- One form control as observed by `Q.is_form_changed`. -/
structure Field where
  fieldType : List Char
  value : List Char
  defaultValue : List Char
  checked : Bool
  defaultChecked : Bool
  disabled : Bool
deriving DecidableEq, Repr

/-- A form as observed by `Q._ajaxSubmitForm`: its action URL, its
component target, and its input/textarea/select controls. -/
structure Form where
  action : List Char
  target : List Char
  fields : List Field
deriving DecidableEq, Repr

/-- `Q.is_form_changed` from `utils.js`: some non-disabled control
differs from its default (checkedness for checkboxes and radios, value
for everything else). -/
def is_form_changed (form : Form) : Bool :=
  form.fields.any fun input =>
    if input.disabled then false
    else if input.fieldType = "checkbox".toList ∨ input.fieldType = "radio".toList then
      input.checked != input.defaultChecked
    else
      input.value != input.defaultValue

/-- `Q._ajaxSubmitForm` from `utils.js`: reject immediately when the
form is unchanged; otherwise disable the submit buttons, POST through
`load_and_trap`, flash and log on rejection, and re-enable the buttons
in a `.finally`. -/
def ajaxSubmitForm (form : Form) (net : NetOracle) (dom : DomOracle) :
    JSPromise Unit :=
  if is_form_changed form = false then
    pReject ⟨"Form was not changed".toList⟩
  else
    pFinally
      (pCatch
        (pThen (pEmit (Effect.setButtonsDisabled true)) fun _ =>
          load_and_trap ("POST".toList) form.action form.target net dom)
        fun _ =>
          pThen (pEmit (Effect.flashMsg ("Submission error".toList) dangerCls)) fun _ =>
            pEmit (Effect.consoleErrorLog ("Form submission failed:".toList)))
      (pEmit (Effect.setButtonsDisabled false))

end Q

/-! ### The global-delegate flag and the timer wrappers -/

/-- The state touched by `Q._maybeSetupGlobalDelegate`: the
`Q._globalDelegateActive` boolean and the number of click listeners
registered on `document.body`. -/
structure GState where
  active : Bool
  listeners : ℕ
deriving DecidableEq, Repr

namespace Q

/-- The page-load initial state: `Q._globalDelegateActive = false`, no
listener registered. -/
def gInit : GState := ⟨false, 0⟩

/-- `Q._maybeSetupGlobalDelegate` from `utils.js`: return immediately
when the flag is set, otherwise set it and register one listener. -/
def maybeSetupGlobalDelegate (st : GState) : GState :=
  if st.active then st
  else { active := true, listeners := st.listeners + 1 }

/-- One invocation of the function returned by `Q.debounce`: it clears
the pending timer and schedules a deferred execution of the wrapped
function after `wait` milliseconds. -/
def debounceInvoke (wait : Int) : List Effect :=
  [Effect.cancelTimer, Effect.schedule wait]

/-- One invocation of the handler returned by `Q.throttle`: when no
throttle window is open it runs the callback and schedules the
window-closing timeout; otherwise it only stores the event. -/
def throttleInvoke (delay : Int) (throttleActive : Bool) : List Effect :=
  if throttleActive then []
  else [Effect.callbackRun, Effect.schedule delay]

end Q

/-! ### Specification-side definitions

These restate, in the specification's own words, what the claims assert
about the code; the theorems below compare them with the definitions
translated from the source. -/

/-- Spec-side password score, following the claim's words: round of the
max of 0 and -10 plus the sum over positions `i` of `5 / k_i`, where
`k_i` counts the occurrences of `text[i]` among the first `i + 1`
characters, plus 10 for each of the four character classes that occurs
in the text. -/
def specScorePassword (text : List Char) : Int :=
  Q.jsRound (max 0 (-10 +
    (∑ i in Finset.range text.length,
      (5 : ℚ) / (countOcc (text.getD i 'a') (text.take (i + 1)) : ℚ)) +
    ((if text.any Q.isDigitJS then 10 else 0) +
     ((if text.any Q.isLowerJS then 10 else 0) +
      ((if text.any Q.isUpperJS then 10 else 0) +
       (if text.any Q.isNonWordJS then 10 else 0))))))

/-- Spec-side password score of the amended claim: the same formula —
`-10`, plus `5 / k_i` for each position `i` (with `k_i` the number of
occurrences of `text[i]` among the first `i + 1` characters, the terms
added left to right), plus 10 per occurring character class — but with
every division and addition performed in IEEE-754 binary64 arithmetic,
then clamped at 0 and rounded. -/
def specScorePasswordF (text : List Char) : Int :=
  jsRoundD (max0D (Q.classFold text
    (((List.range text.length).map
        (fun i => countOcc (text.getD i 'a') (text.take (i + 1)))).foldl
      (fun acc k => faddD acc (fdivND 5 k)) ⟨-10, 0⟩)))

/-- Spec-side description of `String.prototype.format`, following the
claim's words: the output is obtained from the input by scanning left
to right and replacing every substring consisting of a brace-open, a
non-empty run `k` of characters not containing a brace-close, and a
brace-close, by the value of `args[k]` converted to a string; positions
where no such substring starts are copied. -/
inductive FmtRel (args : ArgsMap) : List Char → List Char → Prop where
  | nil : FmtRel args [] []
  | copy (c : Char) (s t : List Char) :
      StringPrototype.placeholderAt (c :: s) = false →
      FmtRel args s t → FmtRel args (c :: s) (c :: t)
  | subst (k s t : List Char) : k ≠ [] → '}' ∉ k →
      FmtRel args s t →
      FmtRel args ('{' :: (k ++ '}' :: s)) (resolveArg args k ++ t)

/-- The claim's side condition for the unchanged case of
`String.prototype.format`: the string contains no substring of the form
brace-open, non-empty brace-close-free run, brace-close. -/
def NoPlaceholder (s : List Char) : Prop :=
  ∀ pre k post, s = pre ++ '{' :: (k ++ '}' :: post) → k = [] ∨ '}' ∈ k

/-- Spec-side plural key, following the claim's words: the largest
numeric key of the entry that is at most `n`, with 0 used when no key
qualifies. -/
def specPluralKey (entry : List (ℕ × List Char)) (n : Int) : ℕ :=
  (((entry.filter fun p => (p.1 : Int) ≤ n).map Prod.fst).foldr max 0)

/-- JavaScript `xs.join(", ")` on the `List Char` model, used by the
round-trip claim about `Q.parse_list`. -/
def joinComma : List (List Char) → List Char
  | [] => []
  | [x] => x
  | x :: y :: rest => x ++ ',' :: ' ' :: joinComma (y :: rest)

/-- The claim's hypothesis that a string has no leading or trailing
whitespace. -/
def NoEdgeWS (x : List Char) : Prop :=
  x.takeWhile isJSWhitespace = [] ∧ x.reverse.takeWhile isJSWhitespace = []

instance (x : List Char) : Decidable (NoEdgeWS x) := by
  unfold NoEdgeWS; infer_instance

/-- The shared mutable state of the library named by the statelessness
claim: the `Q._globalDelegateActive` flag and the `T.translations`
table. -/
structure LibState where
  globalDelegateActive : Bool
  translations : T.Translations

namespace Q

/-- `Q.parse_list` as a state transformer over the shared library
state; the source reads and writes neither global, so the state passes
through unchanged. -/
def parse_list_st (line : List Char) (st : LibState) :
    List (List Char) × LibState :=
  (parse_list line, st)

/-- `Q.score_password` as a state transformer over the shared library
state; the source reads and writes neither global. -/
def score_password_st (text : List Char) (st : LibState) : Int × LibState :=
  (score_password text, st)

end Q

namespace StringPrototype

/-- `String.prototype.format` as a state transformer over the shared
library state; the source reads and writes neither global. -/
def format_st (s : List Char) (args : ArgsMap) (st : LibState) :
    List Char × LibState :=
  (format s args, st)

end StringPrototype

namespace T

/-- `T.format` as a state transformer over the shared library state: it
reads `T.translations` from the state and writes nothing. -/
def format_st (text : List Char) (args : ArgsMap) (st : LibState) :
    Option (List Char) × LibState :=
  (format st.translations text args, st)

end T

/-- Does an effect issue an HTTP request? -/
def Effect.isFetch : Effect → Bool
  | Effect.fetchCall _ _ => true
  | _ => false

/-- The claim's hypothesis for the error path of `Q.load_and_trap`: the
HTTP request fails (fetch rejects or reading the body rejects) or the
response processing throws (which requires the processing to be
reached: no redirect and an existing target). -/
def requestFailsOrThrows (net : NetOracle) (dom : DomOracle) : Prop :=
  (∃ e, net.fetchResult = Except.error e) ∨
  (∃ e, net.textResult = Except.error e) ∨
  (net.redirected = false ∧ dom.targetExists = true ∧ ∃ e, dom.procThrow = some e)

/-! ### Helper lemmas -/

lemma countOcc_append (c : Char) (l1 l2 : List Char) :
    countOcc c (l1 ++ l2) = countOcc c l1 + countOcc c l2 := by
  induction l1 with
  | nil => simp [countOcc]
  | cons d r ih => simp [countOcc, ih]; omega

lemma scoreLoop_count (l : List Char) : ∀ (pre : List Char) (s : Dy),
    Q.scoreLoop (fun d => countOcc d pre) s l =
      ((List.range l.length).map
        (fun i => countOcc (l.getD i 'a') (pre ++ l.take (i + 1)))).foldl
        (fun acc k => faddD acc (fdivND 5 k)) s := by
  induction l with
  | nil => intro pre s; simp [Q.scoreLoop]
  | cons c rest ih =>
      intro pre s
      have hfun : (fun d => if d = c then countOcc c pre + 1 else countOcc d pre) =
          (fun d => countOcc d (pre ++ [c])) := by
        funext d
        by_cases hd : d = c
        · subst hd; simp [countOcc_append, countOcc]
        · simp [countOcc_append, countOcc, hd, Ne.symm hd]
      have hc : countOcc c (pre ++ [c]) = countOcc c pre + 1 := by
        simp [countOcc_append, countOcc]
      calc Q.scoreLoop (fun d => countOcc d pre) s (c :: rest)
          = Q.scoreLoop (fun d => countOcc d (pre ++ [c]))
              (faddD s (fdivND 5 (countOcc c pre + 1))) rest := by
            rw [Q.scoreLoop, hfun]
        _ = ((List.range rest.length).map
              (fun i => countOcc (rest.getD i 'a') ((pre ++ [c]) ++ rest.take (i + 1)))).foldl
              (fun acc k => faddD acc (fdivND 5 k))
              (faddD s (fdivND 5 (countOcc c pre + 1))) := by
            rw [ih]
        _ = ((List.range ((c :: rest).length)).map
              (fun i => countOcc ((c :: rest).getD i 'a') (pre ++ (c :: rest).take (i + 1)))).foldl
              (fun acc k => faddD acc (fdivND 5 k)) s := by
            have hhead : countOcc ((c :: rest).getD 0 'a')
                (pre ++ (c :: rest).take (0 + 1)) = countOcc c pre + 1 := by
              simp [hc]
            have htail : ((fun i => countOcc ((c :: rest).getD i 'a')
                  (pre ++ (c :: rest).take (i + 1))) ∘ Nat.succ) =
                (fun i => countOcc (rest.getD i 'a') ((pre ++ [c]) ++ rest.take (i + 1))) := by
              funext i
              simp [Function.comp, List.append_assoc]
            rw [show (c :: rest).length = rest.length + 1 from rfl,
              List.range_succ_eq_map, List.map_cons, hhead, List.foldl_cons,
              List.map_map, htail]

lemma max0D_m_nonneg (d : Dy) : 0 ≤ (max0D d).m := by
  unfold max0D
  by_cases h : d.m < 0
  · simp [h]
  · simp [h]; omega

lemma jsRoundD_nonneg (d : Dy) (h : 0 ≤ d.m) : 0 ≤ jsRoundD d := by
  unfold jsRoundD
  by_cases he : 0 ≤ d.e
  · rw [if_pos he]
    positivity
  · rw [if_neg he]
    have h2 : (0 : ℤ) ≤ 2 ^ ((-d.e).toNat) := pow_nonneg (by norm_num) _
    have h1 : (0 : ℤ) ≤ 2 * d.m + 2 ^ ((-d.e).toNat) := by linarith
    exact Int.fdiv_nonneg h1 (pow_nonneg (by norm_num) _)

/-- Counterexample to claim C1 as stated: at the input `caabbbbaaabba`
the program's double-precision accumulation reaches
`29.499999999999996` (the double `8303511812964351 * 2^-48`, just below
the exact value 29.5) and `Math.round` returns 29, while the claim's
exact formula rounds 29.5 up to 30. -/
theorem c1_counterexample :
    Q.score_password ("caabbbbaaabba".toList) = 29 ∧
    specScorePassword ("caabbbbaaabba".toList) = 30 := by
  constructor
  · decide
  · unfold specScorePassword Q.jsRound
    have hsum : (∑ i in Finset.range (("caabbbbaaabba".toList).length),
        (5 : ℚ) / (countOcc (("caabbbbaaabba".toList).getD i 'a')
          (("caabbbbaaabba".toList).take (i + 1)) : ℚ)) = 59 / 2 := by
      simp [Finset.sum_range_succ, countOcc]
      norm_num
    rw [hsum]
    simp [Q.isDigitJS, Q.isLowerJS, Q.isUpperJS, Q.isNonWordJS]
    norm_num

/-- Claim C1 (amended): `Q.score_password` computes the claim's formula
— round of the max of 0 and `-10 + Σ 5 / k_i + 10` per occurring
character class, with `k_i` the count of `text[i]` among the first
`i + 1` characters — in IEEE-754 double precision, each division and
addition individually rounded (which at exact half-integer scores can
round differently from the exact formula); the result is always a
non-negative integer, and it is 0 for the empty string. -/
theorem c1_score_password_amended :
    (∀ text : List Char, Q.score_password text = specScorePasswordF text) ∧
    (∀ text : List Char, 0 ≤ Q.score_password text) ∧
    Q.score_password [] = 0 := by
  refine ⟨?_, ?_, ?_⟩
  · intro text
    have h0 : (fun _ : Char => (0 : ℕ)) = (fun d => countOcc d []) := by
      funext d; simp [countOcc]
    unfold Q.score_password specScorePasswordF
    rw [h0, scoreLoop_count]
    simp
  · intro text
    exact jsRoundD_nonneg _ (max0D_m_nonneg _)
  · decide

/-- Claim C5: `Q._maybeSetupGlobalDelegate` is idempotent — from the
page-load state, any positive number of calls has the effect of one
call: the first sets the flag and registers a single listener, every
later call returns without changing anything. -/
theorem c5_global_delegate_idempotent :
    Q.gInit = ⟨false, 0⟩ ∧
    Q.maybeSetupGlobalDelegate Q.gInit = ⟨true, 1⟩ ∧
    (∀ st : GState, st.active = true → Q.maybeSetupGlobalDelegate st = st) ∧
    (∀ n : ℕ, 1 ≤ n →
      Q.maybeSetupGlobalDelegate^[n] Q.gInit = Q.maybeSetupGlobalDelegate Q.gInit) := by
  refine ⟨rfl, rfl, ?_, ?_⟩
  · intro st h; simp [Q.maybeSetupGlobalDelegate, h]
  · have hfix : ∀ m : ℕ, Q.maybeSetupGlobalDelegate^[m] (Q.maybeSetupGlobalDelegate Q.gInit) =
        Q.maybeSetupGlobalDelegate Q.gInit := by
      intro m
      induction m with
      | zero => rfl
      | succ m ih => rw [Function.iterate_succ_apply, show
          Q.maybeSetupGlobalDelegate (Q.maybeSetupGlobalDelegate Q.gInit) =
            Q.maybeSetupGlobalDelegate Q.gInit from rfl, ih]
    intro n hn
    obtain ⟨m, rfl⟩ : ∃ m, n = m + 1 := ⟨n - 1, by omega⟩
    rw [Function.iterate_succ_apply, hfix]

/-- Witness for C5 at a concrete input: three calls from the page-load
state equal one call. -/
theorem c5_witness :
    Q.maybeSetupGlobalDelegate^[3] Q.gInit = Q.maybeSetupGlobalDelegate Q.gInit :=
  c5_global_delegate_idempotent.2.2.2 3 (by norm_num)

/-- Claim C6: the string helpers are stateless and deterministic — as
state transformers over the shared library state (the delegate flag and
the translation table) they leave the state unchanged, and their
results do not depend on the state (for `T.format`, only on the
translation table). -/
theorem c6_helpers_stateless :
    ∀ (st st' : LibState) (line text s ttext : List Char) (args targs : ArgsMap),
    (Q.parse_list_st line st).2 = st ∧
    (Q.parse_list_st line st).1 = (Q.parse_list_st line st').1 ∧
    (Q.score_password_st text st).2 = st ∧
    (Q.score_password_st text st).1 = (Q.score_password_st text st').1 ∧
    (StringPrototype.format_st s args st).2 = st ∧
    (StringPrototype.format_st s args st).1 = (StringPrototype.format_st s args st').1 ∧
    (T.format_st ttext targs st).2 = st ∧
    (st.translations = st'.translations →
      (T.format_st ttext targs st).1 = (T.format_st ttext targs st').1) := by
  intro st st' line text s ttext args targs
  refine ⟨rfl, rfl, rfl, rfl, rfl, rfl, rfl, fun h => ?_⟩
  simp [T.format_st, h]

/-- Witness for C6 at concrete inputs: two states differing in the
delegate flag but sharing the translation table give equal `T.format`
results. -/
theorem c6_witness :
    (T.format_st ("x".toList) [] ⟨true, []⟩).1 = (T.format_st ("x".toList) [] ⟨false, []⟩).1 :=
  (c6_helpers_stateless ⟨true, []⟩ ⟨false, []⟩ [] [] [] ("x".toList) [] []).2.2.2.2.2.2.2 rfl

lemma split_at_brace : ∀ (rest : List Char), rest.dropWhile (fun c => c ≠ '}') ≠ [] →
    rest = rest.takeWhile (fun c => c ≠ '}') ++
      '}' :: (rest.dropWhile (fun c => c ≠ '}')).tail := by
  intro rest
  induction rest with
  | nil => intro h; exact absurd rfl h
  | cons c r ih =>
      intro h
      by_cases hc : c = '}'
      · subst hc
        rw [List.takeWhile_cons, List.dropWhile_cons]
        simp
      · rw [List.dropWhile_cons] at h ⊢
        rw [List.takeWhile_cons]
        rw [if_pos (by simp [hc]), if_pos (by simp [hc])] at *
        rw [List.cons_append]
        exact congrArg (List.cons c) (ih h)

lemma brace_not_mem_takeWhile (rest : List Char) :
    '}' ∉ rest.takeWhile (fun c => c ≠ '}') := by
  intro hmem
  have := List.mem_takeWhile_imp hmem
  simp at this

lemma placeholderAt_cons_iff (c : Char) (rest : List Char) :
    StringPrototype.placeholderAt (c :: rest) = true ↔
      (c = '{' ∧ (rest.takeWhile (fun x => x ≠ '}')) ≠ [] ∧
        (rest.dropWhile (fun x => x ≠ '}')) ≠ []) := by
  unfold StringPrototype.placeholderAt
  simp [List.isEmpty_iff, and_assoc]

lemma fmtRel_formatList (args : ArgsMap) : ∀ s : List Char,
    FmtRel args s (StringPrototype.formatList args s) := by
  intro s
  induction s using StringPrototype.formatList.induct args with
  | case1 =>
      rw [StringPrototype.formatList]
      exact FmtRel.nil
  | case2 c rest h ih =>
      obtain ⟨hc, htw, hdw⟩ := h
      subst hc
      rw [StringPrototype.formatList, if_pos ⟨rfl, htw, hdw⟩]
      have hsplit := split_at_brace rest hdw
      have hmem := brace_not_mem_takeWhile rest
      rw [show ('{' :: rest) = '{' :: (rest.takeWhile (fun x => x ≠ '}') ++
          '}' :: (rest.dropWhile (fun x => x ≠ '}')).tail) from congrArg _ hsplit]
      exact FmtRel.subst _ _ _ htw hmem ih
  | case3 c rest h ih =>
      rw [StringPrototype.formatList, if_neg h]
      refine FmtRel.copy c rest _ ?_ ih
      rcases hb : StringPrototype.placeholderAt (c :: rest) with _ | _
      · rfl
      · exact absurd ((placeholderAt_cons_iff c rest).mp hb) h

lemma formatList_no_placeholder (args : ArgsMap) : ∀ s : List Char,
    NoPlaceholder s → StringPrototype.formatList args s = s := by
  intro s
  induction s using StringPrototype.formatList.induct args with
  | case1 =>
      intro _
      rw [StringPrototype.formatList]
  | case2 c rest h ih =>
      intro hnp
      obtain ⟨hc, htw, hdw⟩ := h
      subst hc
      exfalso
      rcases hnp [] (rest.takeWhile (fun x => x ≠ '}'))
          ((rest.dropWhile (fun x => x ≠ '}')).tail)
          (by rw [List.nil_append]; rw [← split_at_brace rest hdw]) with h0 | h0
      · exact htw h0
      · exact brace_not_mem_takeWhile rest h0
  | case3 c rest h ih =>
      intro hnp
      rw [StringPrototype.formatList, if_neg h]
      rw [ih]
      intro pre k post hsp
      exact hnp (c :: pre) k post (by rw [hsp]; rfl)

/-- Claim C3: `String.prototype.format` replaces every placeholder —
scanning left to right, each substring made of a brace-open, a
non-empty brace-close-free run `k`, and a brace-close is replaced by
`args[k]` converted to a string (`undefined` when the property is
missing) and everything else is copied — and a string containing no
such substring is returned unchanged. -/
theorem c3_format_replaces_placeholders :
    ∀ (args : ArgsMap) (s : List Char),
    FmtRel args s (StringPrototype.format s args) ∧
    (NoPlaceholder s → StringPrototype.format s args = s) := by
  intro args s
  exact ⟨fmtRel_formatList args s, formatList_no_placeholder args s⟩

/-- Witness for C3 at concrete inputs: a placeholder-free string is
returned unchanged, and the relation holds of the computed output. -/
theorem c3_witness :
    FmtRel [] ("ab".toList) (StringPrototype.format ("ab".toList) []) ∧
    StringPrototype.format ("ab".toList) [] = "ab".toList :=
  ⟨(c3_format_replaces_placeholders [] ("ab".toList)).1,
   (c3_format_replaces_placeholders [] ("ab".toList)).2 (by
      intro pre k post h
      exfalso
      have hm : '{' ∈ ("ab".toList) := by
        rw [h]
        exact List.mem_append_right _ (List.mem_cons_self _ _)
      revert hm
      decide)⟩

lemma foldr_max_shift : ∀ (L : List ℕ) (a b : ℕ), b ≤ a →
    L.foldr max a = max a (L.foldr max b) := by
  intro L
  induction L with
  | nil => intro a b h; simp [Nat.max_eq_left h]
  | cons x L' ih =>
      intro a b h
      simp only [List.foldr_cons]
      rw [ih a b h, Nat.max_left_comm]

lemma pluralGo_eq_spec : ∀ (entry : List (ℕ × List Char)) (n : Int) (k : ℕ),
    List.Pairwise (fun p q => p.1 < q.1) entry →
    (∀ p ∈ entry, k ≤ p.1) →
    T.pluralGo entry n k =
      ((entry.filter fun p => (p.1 : Int) ≤ n).map Prod.fst).foldr max k := by
  intro entry
  induction entry with
  | nil => intro n k _ _; rfl
  | cons iv rest ih =>
      intro n k hpw hk
      obtain ⟨i, v⟩ := iv
      have hhead : ∀ q ∈ rest, i < q.1 := by
        intro q hq
        exact (List.pairwise_cons.mp hpw).1 q hq
      have hrest : List.Pairwise (fun p q => p.1 < q.1) rest :=
        (List.pairwise_cons.mp hpw).2
      by_cases hin : (i : Int) ≤ n
      · rw [show T.pluralGo ((i, v) :: rest) n k = T.pluralGo rest n i from by
          rw [T.pluralGo, if_pos hin]]
        rw [ih n i hrest (fun p hp => le_of_lt (hhead p hp))]
        rw [List.filter_cons_of_pos (by simpa using hin), List.map_cons,
          List.foldr_cons]
        exact foldr_max_shift _ i k (hk (i, v) (by simp))
      · rw [show T.pluralGo ((i, v) :: rest) n k = k from by
          rw [T.pluralGo, if_neg hin]]
        rw [List.filter_cons_of_neg (by simpa using hin)]
        rw [show rest.filter (fun p => (p.1 : Int) ≤ n) = [] from ?_]
        · rfl
        · rw [List.filter_eq_nil_iff]
          intro p hp
          have h1 : i < p.1 := hhead p hp
          simp only [decide_eq_true_eq]
          intro h2
          apply hin
          calc (i : Int) ≤ (p.1 : Int) := by exact_mod_cast le_of_lt h1
            _ ≤ n := h2

/-- Claim C10: the pluralisation rule of `T.format` — `n` is `args.n`
when present and 1 otherwise; with a translation entry for the text
(its numeric keys listed ascending, as JS `for...in` enumerates them)
the translation chosen sits under the largest key that is at most `n`,
key 0 when no key qualifies, and is interpolated with the arguments;
without an entry the text itself is interpolated. -/
theorem c10_plural_rule :
    ∀ (table : T.Translations) (text : List Char) (args : ArgsMap),
    (argsLookup args ("n".toList) = none → T.argN args = 1) ∧
    (∀ i : Int, argsLookup args ("n".toList) = some (JSVal.num i) → T.argN args = i) ∧
    (List.lookup text table = none →
      T.format table text args = some (StringPrototype.format text args)) ∧
    (∀ entry, List.lookup text table = some entry →
      List.Pairwise (fun p q => p.1 < q.1) entry →
      T.format table text args =
        (List.lookup (specPluralKey entry (T.argN args)) entry).map
          (fun t => StringPrototype.format t args)) := by
  intro table text args
  refine ⟨?_, ?_, ?_, ?_⟩
  · intro h; unfold T.argN; rw [h]
  · intro i h; unfold T.argN; rw [h]
  · intro h; unfold T.format; rw [h]
  · intro entry hentry hpw
    unfold T.format
    rw [hentry]
    show (match List.lookup (T.pluralGo entry (T.argN args) 0) entry with
      | some t => some (StringPrototype.format t args)
      | none => none) =
      Option.map (fun t => StringPrototype.format t args)
        (List.lookup (specPluralKey entry (T.argN args)) entry)
    rw [show T.pluralGo entry (T.argN args) 0 = specPluralKey entry (T.argN args) from by
      rw [pluralGo_eq_spec entry (T.argN args) 0 hpw (fun p _ => Nat.zero_le _)]
      rfl]
    rcases hl : List.lookup (specPluralKey entry (T.argN args)) entry with _ | t <;>
      simp [hl]

/-- Witness for C10 at the documentation's example: the table maps
`dog` to plural forms keyed 0, 1, 2, 10 and `args.n = 5`, so the key-2
form is chosen and interpolated. -/
theorem c10_witness :
    T.format [(("dog".toList),
        [(0, "no cane".toList), (1, "un cane".toList),
         (2, "{n} cani".toList), (10, "tanti cani".toList)])]
      ("dog".toList) [(("n".toList), JSVal.num 5)] =
    (List.lookup
        (specPluralKey
          [(0, "no cane".toList), (1, "un cane".toList),
           (2, "{n} cani".toList), (10, "tanti cani".toList)]
          (T.argN [(("n".toList), JSVal.num 5)]))
        [(0, "no cane".toList), (1, "un cane".toList),
         (2, "{n} cani".toList), (10, "tanti cani".toList)]).map
      (fun t => StringPrototype.format t [(("n".toList), JSVal.num 5)]) :=
  (c10_plural_rule _ _ _).2.2.2 _ (by rfl) (by decide)

/-- Counterexample to claim C7 as stated: the function returned by
`Q.debounce` does schedule a deferred execution of its callback (a
`setTimeout`) and does cancel the pending one (a `clearTimeout`), so it
is false that no function in the library schedules or cancels deferred
executions of a callback. -/
theorem c7_counterexample :
    Effect.schedule 250 ∈ Q.debounceInvoke 250 ∧
    Effect.cancelTimer ∈ Q.debounceInvoke 250 := by
  constructor <;> simp [Q.debounceInvoke]

/-- Claim C7 (amended): every call of `Q.ajax` performs exactly one
fetch — its effect trace is exactly one fetch call, whatever the
outcome, so a failed request is never re-issued — and the only deferred
executions of callbacks in the library are the timer wrappers: each
invocation of a `Q.debounce`d function clears the pending timer and
schedules one deferred run, and a `Q.throttle`d handler runs its
callback and schedules the throttle-window timeout when the window is
closed and only stores the event when it is open. -/
theorem c7_amended :
    ∀ (method url : List Char) (net : NetOracle) (wait delay : Int),
    (Q.ajax method url net).1 = [Effect.fetchCall method url] ∧
    (Q.ajax method url net).1.countP Effect.isFetch = 1 ∧
    Q.debounceInvoke wait = [Effect.cancelTimer, Effect.schedule wait] ∧
    Q.throttleInvoke delay false = [Effect.callbackRun, Effect.schedule delay] ∧
    Q.throttleInvoke delay true = [] := by
  intro method url net wait delay
  have heff : (Q.ajax method url net).1 = [Effect.fetchCall method url] := by
    unfold Q.ajax
    rcases net.fetchResult with e | u
    · simp [pThen, pEmit, pReject]
    · rcases htext : net.textResult with e | body <;>
        simp [pThen, pEmit, pReject, pRet, htext]
  refine ⟨heff, ?_, rfl, rfl, rfl⟩
  rw [heff]
  simp [Effect.isFetch]

lemma ajax_effects (m u : List Char) (net : NetOracle) :
    (Q.ajax m u net).1 = [Effect.fetchCall m u] := by
  unfold Q.ajax
  rcases net.fetchResult with e | u'
  · simp [pThen, pEmit, pReject]
  · rcases net.textResult with e2 | body <;> simp [pThen, pEmit, pReject, pRet]

lemma loadSuccess_no_fetch (u t : List Char) (dom : DomOracle) (res : Resp) :
    (Q.loadSuccess u t dom res).1.countP Effect.isFetch = 0 := by
  unfold Q.loadSuccess
  obtain ⟨rdata, rred, rurl, rfh, rfp⟩ := res
  obtain ⟨dte, dpt⟩ := dom
  rcases rred with _ | _ <;> rcases dte with _ | _ <;> rcases dpt with _ | pe <;>
    rcases rfh with _ | raw <;> rcases rfp with _ | mc <;>
      simp [pThen, pEmit, pReject, pRet, Effect.isFetch]

lemma loadAttempt_one_fetch (m u t : List Char) (net : NetOracle) (dom : DomOracle) :
    (Q.loadAttempt m u t net dom).1.countP Effect.isFetch = 1 := by
  unfold Q.loadAttempt
  rcases hpair : Q.ajax (toLowerStr (if m = [] then "GET".toList else m)) u net with ⟨aeffs, ar⟩
  have hae : aeffs = [Effect.fetchCall (toLowerStr (if m = [] then "GET".toList else m)) u] := by
    have h0 := ajax_effects (toLowerStr (if m = [] then "GET".toList else m)) u net
    rw [hpair] at h0
    exact h0
  subst hae
  rcases ar with e | res
  · simp [pThen, Effect.isFetch]
  · simp [pThen, List.countP_append, loadSuccess_no_fetch, Effect.isFetch]

lemma loadAttempt_snd_congr (m u t m' u' t' : List Char) (net : NetOracle) (dom : DomOracle) :
    (Q.loadAttempt m u t net dom).2 = (Q.loadAttempt m' u' t' net dom).2 := by
  unfold Q.loadAttempt Q.loadSuccess Q.ajax
  rcases net with ⟨fr, tr, rd, ru, fh, fp⟩
  rcases dom with ⟨dte, dpt⟩
  rcases fr with e | _ <;> rcases tr with e2 | body <;> rcases rd with _ | _ <;>
    rcases dte with _ | _ <;> rcases dpt with _ | pe <;> rcases fh with _ | raw <;>
      rcases fp with _ | mc <;>
        simp [pThen, pCatch, pEmit, pReject, pRet]

lemma load_and_trap_on_error (m u t : List Char) (net : NetOracle) (dom : DomOracle)
    (e : JSErr) (h : (Q.loadAttempt m u t net dom).2 = Except.error e) :
    Q.load_and_trap m u t net dom =
      ((if t = [] then
          [Effect.flashMsg ("Target element not specified".toList) Q.dangerCls]
        else []) ++
        ((Q.loadAttempt m u t net dom).1 ++
         [Effect.flashMsg ("Ajax component error".toList) Q.dangerCls,
          Effect.consoleErrorLog ("Ajax component error:".toList)]),
       Except.ok ()) := by
  unfold Q.load_and_trap
  have h2 : Q.loadAttempt m u t net dom = ((Q.loadAttempt m u t net dom).1, Except.error e) := by
    rw [← h]
    rfl
  rw [h2]
  by_cases ht : t = []
  · simp [ht, pThen, pCatch, pEmit, pRet]
  · simp [ht, pThen, pCatch, pEmit, pRet]

/-- Claim C4: whenever the request made by `Q.load_and_trap` fails or
its response processing throws, the promise the caller gets back
fulfils (it is not left rejected), the fetch was performed exactly once
and is not retried, and the only recovery is the error handler's danger
flash banner followed by the `console.error` log — the final two
effects.  The same holds through `Q._ajaxSubmitForm` on a changed form:
its promise fulfils, the fetch happened once, and the danger flash and
console log were emitted. -/
theorem c4_error_handling :
    ∀ (method url target : List Char) (form : Q.Form) (net : NetOracle)
      (dom : DomOracle) (e : JSErr),
    (Q.loadAttempt method url target net dom).2 = Except.error e →
    ((Q.load_and_trap method url target net dom).2 = Except.ok () ∧
     (Q.load_and_trap method url target net dom).1.countP Effect.isFetch = 1 ∧
     (Q.load_and_trap method url target net dom).1.reverse.take 2 =
       [Effect.consoleErrorLog ("Ajax component error:".toList),
        Effect.flashMsg ("Ajax component error".toList) Q.dangerCls]) ∧
    (Q.is_form_changed form = true →
      (Q.ajaxSubmitForm form net dom).2 = Except.ok () ∧
      (Q.ajaxSubmitForm form net dom).1.countP Effect.isFetch = 1 ∧
      Effect.flashMsg ("Ajax component error".toList) Q.dangerCls ∈
        (Q.ajaxSubmitForm form net dom).1 ∧
      Effect.consoleErrorLog ("Ajax component error:".toList) ∈
        (Q.ajaxSubmitForm form net dom).1) := by
  intro method url target form net dom e h
  constructor
  · rw [load_and_trap_on_error method url target net dom e h]
    refine ⟨rfl, ?_, ?_⟩
    · by_cases ht : target = [] <;>
        simp [ht, List.countP_append, loadAttempt_one_fetch, Effect.isFetch]
    · by_cases ht : target = [] <;> simp [ht, List.reverse_append]
  · intro hch
    have h2 : (Q.loadAttempt ("POST".toList) form.action form.target net dom).2 =
        Except.error e := by
      rw [loadAttempt_snd_congr ("POST".toList) form.action form.target
        method url target net dom]
      exact h
    have hml := load_and_trap_on_error ("POST".toList) form.action form.target net dom e h2
    unfold Q.ajaxSubmitForm
    rw [if_neg (by simp [hch]), hml]
    refine ⟨?_, ?_, ?_, ?_⟩ <;>
      by_cases hft : form.target = [] <;>
        simp [hft, pThen, pCatch, pFinally, pEmit, List.countP_append,
          loadAttempt_one_fetch, Effect.isFetch]

/-- Witness for C4 at a concrete input: a fetch that rejects, with a
changed one-field form. -/
theorem c4_witness :
    (Q.load_and_trap ("GET".toList) ("u".toList) ("t".toList)
        ⟨Except.error ⟨"boom".toList⟩, Except.ok [], false, [], none, none⟩
        ⟨true, none⟩).2 = Except.ok () ∧
    (Q.ajaxSubmitForm
        ⟨"u".toList, "t".toList,
         [⟨"text".toList, "w".toList, "v".toList, false, false, false⟩]⟩
        ⟨Except.error ⟨"boom".toList⟩, Except.ok [], false, [], none, none⟩
        ⟨true, none⟩).2 = Except.ok () :=
  ⟨(c4_error_handling ("GET".toList) ("u".toList) ("t".toList)
      ⟨"u".toList, "t".toList,
       [⟨"text".toList, "w".toList, "v".toList, false, false, false⟩]⟩
      ⟨Except.error ⟨"boom".toList⟩, Except.ok [], false, [], none, none⟩
      ⟨true, none⟩ ⟨"boom".toList⟩ rfl).1.1,
   ((c4_error_handling ("GET".toList) ("u".toList) ("t".toList)
      ⟨"u".toList, "t".toList,
       [⟨"text".toList, "w".toList, "v".toList, false, false, false⟩]⟩
      ⟨Except.error ⟨"boom".toList⟩, Except.ok [], false, [], none, none⟩
      ⟨true, none⟩ ⟨"boom".toList⟩ rfl).2 (by decide)).1⟩

/-- Claim C9: a form every one of whose non-disabled controls is at its
default (checkedness for checkboxes and radios, value for the rest)
makes `Q.is_form_changed` false, and `Q._ajaxSubmitForm` on it returns
a promise rejected with the error message `Form was not changed`,
performs no side effect at all — no HTTP request, no button change, no
page change. -/
theorem c9_unchanged_form_rejects :
    ∀ (form : Q.Form) (net : NetOracle) (dom : DomOracle),
    (∀ f ∈ form.fields, f.disabled = false →
      ((f.fieldType = "checkbox".toList ∨ f.fieldType = "radio".toList) →
        f.checked = f.defaultChecked) ∧
      (¬(f.fieldType = "checkbox".toList ∨ f.fieldType = "radio".toList) →
        f.value = f.defaultValue)) →
    Q.is_form_changed form = false ∧
    Q.ajaxSubmitForm form net dom = ([], Except.error ⟨"Form was not changed".toList⟩) := by
  intro form net dom h
  have hchanged : Q.is_form_changed form = false := by
    unfold Q.is_form_changed
    rw [List.any_eq_false]
    intro f hf
    by_cases hdis : f.disabled
    · simp [hdis]
    · have hdis' : f.disabled = false := by simpa using hdis
      by_cases ht : f.fieldType = "checkbox".toList ∨ f.fieldType = "radio".toList
      · rw [if_neg hdis, if_pos ht]
        simp [(h f hf hdis').1 ht]
      · rw [if_neg hdis, if_neg ht]
        simp [(h f hf hdis').2 ht]
  refine ⟨hchanged, ?_⟩
  unfold Q.ajaxSubmitForm
  rw [hchanged]
  rfl

lemma plStep_comma (st : Q.PLState) (hst : st.q = false) :
    Q.plStep st ',' = { st with acc := st.acc ++ [trimL st.cur], cur := [] } := by
  unfold Q.plStep
  rw [if_neg (by simp [hst]), if_neg (by decide), if_pos rfl]

lemma plStep_plain (st : Q.PLState) (c : Char) (hst : st.q = false)
    (hc1 : ¬c = '"') (hc2 : ¬c = ',') :
    Q.plStep st c = { st with cur := st.cur ++ [c] } := by
  unfold Q.plStep
  rw [if_neg (by simp [hst]), if_neg hc1, if_neg hc2]

lemma parse_list_foldl_comma (l : List Char) (hq : (List.foldl Q.plStep Q.plInit l).q = false)
    (hl : l ≠ []) :
    Q.parse_list l = (List.foldl Q.plStep Q.plInit l).acc ++
      [trimL (List.foldl Q.plStep Q.plInit l).cur] := by
  unfold Q.parse_list
  rw [if_neg hl, List.foldl_append]
  rw [show List.foldl Q.plStep (List.foldl Q.plStep Q.plInit l) [','] =
      Q.plStep (List.foldl Q.plStep Q.plInit l) ',' from rfl]
  rw [plStep_comma _ hq]

/-- Counterexample to claim C2 as stated: the one-character input
consisting of a single double quote is non-empty, yet `Q.parse_list`
returns no field at all — the pending field of an unterminated quoted
section is discarded, not pushed, at end of input. -/
theorem c2_counterexample :
    ('"' :: []) ≠ ([] : List Char) ∧ Q.parse_list ('"' :: []) = [] := by
  constructor
  · simp
  · rfl

/-- Claim C2 (amended): `Q.parse_list` of the empty string is the empty
array; scanning splits at unquoted commas, double quotes toggle quoted
mode, a backslash inside quotes escapes the next character, and fields
are pushed trimmed — but the final pending field is completed and
pushed only when the scan ends outside a quoted section.  When it does
(in particular whenever the input has no unterminated quote), a
non-empty input yields at least one field and a trailing unquoted comma
yields a trailing empty field; an input ending inside an unterminated
quoted section has its pending content discarded and can yield no
fields at all. -/
theorem c2_parse_list_amended :
    Q.parse_list [] = [] ∧
    (∀ l : List Char, l ≠ [] → (List.foldl Q.plStep Q.plInit l).q = false →
      Q.parse_list l = (List.foldl Q.plStep Q.plInit l).acc ++
        [trimL (List.foldl Q.plStep Q.plInit l).cur]) ∧
    (∀ l : List Char, l ≠ [] → (List.foldl Q.plStep Q.plInit l).q = false →
      Q.parse_list l ≠ []) ∧
    (∀ l : List Char, (List.foldl Q.plStep Q.plInit l).q = false →
      (Q.parse_list (l ++ [','])).getLast? = some []) := by
  refine ⟨rfl, ?_, ?_, ?_⟩
  · intro l hl hq
    exact parse_list_foldl_comma l hq hl
  · intro l hl hq
    rw [parse_list_foldl_comma l hq hl]
    simp
  · intro l hq
    unfold Q.parse_list
    rw [if_neg (by simp), show (l ++ [','] ++ [',']) = l ++ [',', ','] by simp,
      List.foldl_append]
    rw [show List.foldl Q.plStep (List.foldl Q.plStep Q.plInit l) [',', ','] =
        Q.plStep (Q.plStep (List.foldl Q.plStep Q.plInit l) ',') ',' from rfl]
    rw [plStep_comma _ hq, plStep_comma _ (by simp [hq])]
    simp [trimL]

/-- Witness for the amended C2 at a concrete input: a one-character
input whose scan ends outside quotes yields its one trimmed field, and
with a trailing comma a trailing empty field. -/
theorem c2_witness :
    Q.parse_list ("a".toList) = (List.foldl Q.plStep Q.plInit ("a".toList)).acc ++
      [trimL (List.foldl Q.plStep Q.plInit ("a".toList)).cur] ∧
    Q.parse_list ("a".toList) ≠ [] ∧
    (Q.parse_list ("a".toList ++ [','])).getLast? = some [] :=
  ⟨c2_parse_list_amended.2.1 ("a".toList) (by decide) (by decide),
   c2_parse_list_amended.2.2.1 ("a".toList) (by decide) (by decide),
   c2_parse_list_amended.2.2.2 ("a".toList) (by decide)⟩

lemma foldl_plain (x : List Char) (hx : ∀ c ∈ x, ¬c = '"' ∧ ¬c = ',') :
    ∀ (a : List (List Char)) (cur : List Char),
    List.foldl Q.plStep ⟨a, cur, false, false⟩ x = ⟨a, cur ++ x, false, false⟩ := by
  induction x with
  | nil => intro a cur; simp
  | cons c r ih =>
      intro a cur
      have hc := hx c (by simp)
      rw [List.foldl_cons, plStep_plain _ c rfl hc.1 hc.2,
        ih (fun d hd => hx d (by simp [hd]))]
      simp

lemma dropWhile_of_takeWhile_nil {p : Char → Bool} {l : List Char}
    (h : l.takeWhile p = []) : l.dropWhile p = l := by
  cases l with
  | nil => rfl
  | cons c r =>
      rcases hp : p c with _ | _
      · simp [List.dropWhile_cons, hp]
      · simp [List.takeWhile_cons, hp] at h

lemma dropWhile_ws_append {ws x : List Char}
    (hws : ∀ c ∈ ws, isJSWhitespace c = true) :
    (ws ++ x).dropWhile isJSWhitespace = x.dropWhile isJSWhitespace := by
  induction ws with
  | nil => simp
  | cons c r ih =>
      simp only [List.cons_append, List.dropWhile_cons, hws c (by simp)]
      exact ih (fun d hd => hws d (by simp [hd]))

lemma trimL_ws_append {ws x : List Char}
    (hws : ∀ c ∈ ws, isJSWhitespace c = true) (hx : NoEdgeWS x) :
    trimL (ws ++ x) = x := by
  unfold trimL
  rw [dropWhile_ws_append hws, dropWhile_of_takeWhile_nil hx.1,
    dropWhile_of_takeWhile_nil hx.2, List.reverse_reverse]

lemma joinComma_fold (xs : List (List Char))
    (hxs : ∀ x ∈ xs, x ≠ [] ∧ '"' ∉ x ∧ ',' ∉ x ∧ NoEdgeWS x) :
    ∀ (a : List (List Char)) (ws : List Char),
    (∀ c ∈ ws, isJSWhitespace c = true) → xs ≠ [] →
    List.foldl Q.plStep ⟨a, ws, false, false⟩ (joinComma xs ++ [',']) =
      ⟨a ++ xs, [], false, false⟩ := by
  induction xs with
  | nil => intro a ws hws hne; exact absurd rfl hne
  | cons x rest ih =>
      intro a ws hws _
      have hx := hxs x (by simp)
      have hplain : ∀ c ∈ x, ¬c = '"' ∧ ¬c = ',' := by
        intro c hc
        exact ⟨by rintro rfl; exact hx.2.1 hc, by rintro rfl; exact hx.2.2.1 hc⟩
      have hcomma : Q.plStep ⟨a, ws ++ x, false, false⟩ ',' =
          ⟨a ++ [x], [], false, false⟩ := by
        rw [plStep_comma _ rfl]
        simp [trimL_ws_append hws hx.2.2.2]
      cases rest with
      | nil =>
          show List.foldl Q.plStep ⟨a, ws, false, false⟩ (x ++ [',']) = _
          rw [List.foldl_append, foldl_plain x hplain]
          simpa using hcomma
      | cons y rest' =>
          show List.foldl Q.plStep ⟨a, ws, false, false⟩
            ((x ++ ',' :: ' ' :: joinComma (y :: rest')) ++ [',']) = _
          have hsp : Q.plStep ⟨a ++ [x], [], false, false⟩ ' ' =
              ⟨a ++ [x], [' '], false, false⟩ := by
            rw [plStep_plain _ ' ' rfl (by decide) (by decide)]
            rfl
          rw [show (x ++ ',' :: ' ' :: joinComma (y :: rest')) ++ [','] =
              x ++ ',' :: ' ' :: (joinComma (y :: rest') ++ [',']) by simp]
          rw [List.foldl_append, foldl_plain x hplain, List.foldl_cons, hcomma,
            List.foldl_cons, hsp,
            ih (fun z hz => hxs z (by simp [hz])) (a ++ [x]) [' ']
              (by intro c hc; simp at hc; subst hc; rfl) (by simp)]
          simp

/-- Claim C8: round-trip of tag serialisation — joining with a comma
and a space any list of strings that are non-empty, free of commas,
double quotes and backslashes, and have no leading or trailing
whitespace, and parsing the result with `Q.parse_list`, returns the
original list (including the empty list). -/
theorem c8_parse_list_roundtrip :
    ∀ xs : List (List Char),
    (∀ x ∈ xs, x ≠ [] ∧ '"' ∉ x ∧ ',' ∉ x ∧ '\\' ∉ x ∧ NoEdgeWS x) →
    Q.parse_list (joinComma xs) = xs := by
  intro xs hxs
  cases xs with
  | nil => rfl
  | cons x rest =>
      have hne : joinComma (x :: rest) ≠ [] := by
        have hx := (hxs x (by simp)).1
        cases rest with
        | nil => simpa [joinComma] using hx
        | cons y r =>
            simp only [joinComma]
            intro h
            rw [List.append_eq_nil] at h
            exact absurd h.2 (by simp)
      unfold Q.parse_list
      rw [if_neg hne]
      rw [show Q.plInit = (⟨[], [], false, false⟩ : Q.PLState) from rfl]
      rw [joinComma_fold (x :: rest)
        (fun z hz => ⟨(hxs z hz).1, (hxs z hz).2.1, (hxs z hz).2.2.1, (hxs z hz).2.2.2.2⟩)
        [] [] (by simp) (by simp)]
      simp

/-- Witness for C8 at a concrete input: parsing back the join of two
plain tags returns them. -/
theorem c8_witness :
    Q.parse_list (joinComma [['a', 'b'], ['c']]) = [['a', 'b'], ['c']] :=
  c8_parse_list_roundtrip [['a', 'b'], ['c']] (by decide)

/-- Witness for C9 at a concrete input: a one-field unchanged form is
rejected without effects. -/
theorem c9_witness :
    Q.is_form_changed ⟨[], [], [⟨"text".toList, "v".toList, "v".toList, false, false, false⟩]⟩ = false ∧
    Q.ajaxSubmitForm ⟨[], [], [⟨"text".toList, "v".toList, "v".toList, false, false, false⟩]⟩
        ⟨Except.ok (), Except.ok [], false, [], none, none⟩ ⟨true, none⟩ =
      ([], Except.error ⟨"Form was not changed".toList⟩) :=
  c9_unchanged_form_rejects _ _ _ (by decide)
